import Mathlib

/-!
Verification of the caching layer of the tennis-prediction-tool repository.

The definitions below are a shallow embedding of the `CacheManager` class in
`src/backend/tennis/predict_match.ts` (lines 445-637) together with the cache
call sites in `upload_data.ts`, `auto_sync.ts`, `list_players.ts` and
`get_player.ts`.  JavaScript `Map<string, CacheEntry>` objects are modelled as
insertion-ordered association lists with string keys; `Date.now()` is an
explicit `now : Nat` parameter (milliseconds); JavaScript numbers appearing in
keys are natural numbers rendered with `toString`.
-/

namespace TennisCache

/-! ## String ordering

JavaScript `Array.prototype.sort()` with no comparator sorts strings by code
units.  We model it with an executable lexicographic comparison on the
character lists underlying Lean strings. -/

/-- Lexicographic less-or-equal test on character lists, by code point. -/
def charListLe : List Char → List Char → Bool
  | [], _ => true
  | _ :: _, [] => false
  | a :: x, b :: y =>
    if a.toNat < b.toNat then true
    else if b.toNat < a.toNat then false
    else charListLe x y

/-- The string order used by `generateKey` when sorting parameter names. -/
def strLe (a b : String) : Prop := charListLe a.data b.data = true

instance : DecidableRel strLe := fun a b =>
  inferInstanceAs (Decidable (charListLe a.data b.data = true))

theorem charListLe_total : ∀ x y : List Char, charListLe x y = true ∨ charListLe y x = true
  | [], _ => Or.inl rfl
  | _ :: _, [] => Or.inr rfl
  | a :: x, b :: y => by
    rcases Nat.lt_trichotomy a.toNat b.toNat with h | h | h
    · exact Or.inl (by simp [charListLe, h])
    · have ih := charListLe_total x y
      rcases ih with ih | ih
      · exact Or.inl (by simp [charListLe, h, ih])
      · exact Or.inr (by simp [charListLe, h.symm, ih])
    · exact Or.inr (by simp [charListLe, h])

theorem charListLe_trans : ∀ x y z : List Char,
    charListLe x y = true → charListLe y z = true → charListLe x z = true
  | [], _, _, _, _ => rfl
  | a :: x, [], _, h, _ => by simp [charListLe] at h
  | a :: x, b :: y, [], _, h => by simp [charListLe] at h
  | a :: x, b :: y, c :: z, h1, h2 => by
    simp only [charListLe] at h1 h2 ⊢
    split at h1
    · rename_i hab
      split at h2
      · rename_i hbc
        simp [Nat.lt_trans hab hbc]
      · split at h2
        · exact absurd h2 (by simp)
        · rename_i hcb hbc
          have : b.toNat = c.toNat := by omega
          simp [hab, this ▸ hab]
    · split at h1
      · exact absurd h1 (by simp)
      · rename_i hba hab
        have hab' : a.toNat = b.toNat := by omega
        split at h2
        · rename_i hbc
          simp [hab' ▸ hbc]
        · split at h2
          · exact absurd h2 (by simp)
          · rename_i hcb hbc
            have hbc' : b.toNat = c.toNat := by omega
            have : ¬ a.toNat < c.toNat := by omega
            have : ¬ c.toNat < a.toNat := by omega
            simp_all [charListLe_trans x y z]

theorem char_toNat_inj {a b : Char} (h : a.toNat = b.toNat) : a = b := by
  cases a with
  | mk av ah =>
    cases b with
    | mk bv bh =>
      cases av with
      | mk abv =>
        cases bv with
        | mk bbv =>
          simp only [Char.toNat, UInt32.toNat] at h
          have : abv = bbv := BitVec.eq_of_toNat_eq h
          subst this
          rfl

theorem charListLe_antisymm : ∀ x y : List Char,
    charListLe x y = true → charListLe y x = true → x = y
  | [], [], _, _ => rfl
  | [], _ :: _, _, h => by simp [charListLe] at h
  | _ :: _, [], h, _ => by simp [charListLe] at h
  | a :: x, b :: y, h1, h2 => by
    simp only [charListLe] at h1 h2
    split at h1
    · rename_i hab
      rw [if_neg (by omega), if_pos hab] at h2
      exact absurd h2 (by simp)
    · split at h1
      · exact absurd h1 (by simp)
      · rename_i hba hab
        have : a = b := char_toNat_inj (by omega)
        subst this
        rw [if_neg hab, if_neg hab] at h2
        rw [charListLe_antisymm x y h1 h2]

instance : IsTotal String strLe := ⟨fun a b => charListLe_total a.data b.data⟩

instance : IsTrans String strLe := ⟨fun a b c => charListLe_trans a.data b.data c.data⟩

instance : IsAntisymm String strLe :=
  ⟨fun a b h1 h2 => by
    cases a with
    | mk x =>
      cases b with
      | mk y =>
        rw [charListLe_antisymm x y h1 h2]⟩

/-! ## Key construction (`CacheManager.generateKey`, predict_match.ts 468-474) -/

/-- Model of the JavaScript indexing `params[key]`: the value stored under the
first matching parameter name (call sites only look up names present in the
record, where JavaScript would otherwise produce `"undefined"`). -/
def lookupParam (params : List (String × String)) (k : String) : String :=
  match params.find? (fun p => p.1 == k) with
  | some p => p.2
  | none => "undefined"

/-- Model of `Array.prototype.join('|')`. -/
def joinBar : List String → String
  | [] => ""
  | [s] => s
  | s :: rest => s ++ "|" ++ joinBar rest

/-- Function `generateKey(prefix, params)`: sort the parameter names, render each as
`name:value`, join with `|` and prepend `prefix:`.  Parameters are modelled as
an insertion-ordered association list whose values are already stringified. -/
def generateKey (pfx : String) (params : List (String × String)) : String :=
  pfx ++ ":" ++ joinBar
    (((params.map Prod.fst).insertionSort strLe).map (fun k => k ++ ":" ++ lookupParam params k))

theorem lookupParam_eq_of_mem : ∀ (params : List (String × String)) (k v : String),
    (params.map Prod.fst).Nodup → (k, v) ∈ params → lookupParam params k = v
  | [], _, _, _, h => by simp at h
  | p :: rest, k, v, hnd, hmem => by
    by_cases hk : p.1 = k
    · have hpv : p = (k, v) := by
        rcases List.mem_cons.mp hmem with h | h
        · exact h.symm
        · exfalso
          have : k ∈ rest.map Prod.fst := List.mem_map.mpr ⟨(k, v), h, rfl⟩
          have : p.1 ∉ rest.map Prod.fst := (List.nodup_cons.mp hnd).1
          simp_all
      simp [lookupParam, List.find?_cons, show (p.1 == k) = true from by simp [hk], hpv]
    · have hmem' : (k, v) ∈ rest := by
        rcases List.mem_cons.mp hmem with h | h
        · exact absurd (congrArg Prod.fst h.symm) hk
        · exact h
      have ih := lookupParam_eq_of_mem rest k v (List.nodup_cons.mp hnd).2 hmem'
      simp only [lookupParam, List.find?_cons, show (p.1 == k) = false from by simp [hk]] at ih ⊢
      exact ih

/-- Claim C3.  If two parameter association lists with duplicate-free names
contain exactly the same name-value pairs (in any insertion order), the
generated cache key is identical. -/
theorem generateKey_insertion_order_independent (pfx : String)
    (p1 p2 : List (String × String))
    (h1 : (p1.map Prod.fst).Nodup) (h2 : (p2.map Prod.fst).Nodup)
    (hset : ∀ pr : String × String, pr ∈ p1 ↔ pr ∈ p2) :
    generateKey pfx p1 = generateKey pfx p2 := by
  have hperm : List.Perm p1 p2 :=
    (List.perm_ext_iff_of_nodup (h1.of_map Prod.fst) (h2.of_map Prod.fst)).mpr hset
  have hkeys : List.Perm (p1.map Prod.fst) (p2.map Prod.fst) := hperm.map Prod.fst
  have hsortedeq :
      (p1.map Prod.fst).insertionSort strLe = (p2.map Prod.fst).insertionSort strLe := by
    apply List.eq_of_perm_of_sorted
      (((List.perm_insertionSort strLe _).trans hkeys).trans
        (List.perm_insertionSort strLe _).symm)
      (List.sorted_insertionSort strLe _) (List.sorted_insertionSort strLe _)
  unfold generateKey
  rw [hsortedeq]
  congr 1
  apply congrArg joinBar
  apply List.map_congr_left
  intro k hk
  have hk2 : k ∈ List.insertionSort strLe (p1.map Prod.fst) := by rw [hsortedeq]; exact hk
  have hk1 : k ∈ p1.map Prod.fst := (List.perm_insertionSort strLe _).mem_iff.mp hk2
  obtain ⟨pr, hpr, hfst⟩ := List.mem_map.mp hk1
  rcases pr with ⟨a, b⟩
  simp only at hfst
  subst hfst
  have hv1 : lookupParam p1 a = b := lookupParam_eq_of_mem p1 a b h1 hpr
  have hv2 : lookupParam p2 a = b := lookupParam_eq_of_mem p2 a b h2 ((hset (a, b)).mp hpr)
  rw [hv1, hv2]

/-- Witness for C3 at a concrete pair of permuted parameter lists. -/
theorem generateKey_insertion_order_independent_witness :
    ([("b", "2"), ("a", "1")].map (Prod.fst (β := String))).Nodup ∧
    generateKey "players" [("a", "1"), ("b", "2")] =
      generateKey "players" [("b", "2"), ("a", "1")] := by
  refine ⟨by decide, generateKey_insertion_order_independent "players" _ _ (by decide) (by decide) ?_⟩
  intro pr
  constructor <;> intro h <;> simp only [List.mem_cons, List.not_mem_nil, or_false] at h ⊢ <;> tauto

/-! ## Substring test (JavaScript `String.prototype.includes`) -/

/-- Boolean test that the first character list is an initial segment of the
second. -/
def isPrefB : List Char → List Char → Bool
  | [], _ => true
  | _ :: _, [] => false
  | a :: p, b :: s => a == b && isPrefB p s

/-- Boolean test that `pat` occurs contiguously inside `s`, as in the
JavaScript expression `s.includes(pat)`. -/
def isSubB (pat : List Char) (s : List Char) : Bool :=
  match s with
  | [] => pat.isEmpty
  | _ :: t => isPrefB pat s || isSubB pat t

/-! ## Cache data model (`CacheEntry`, predict_match.ts 439-443) -/

/-- One cache entry: the payload, the `Date.now()` millisecond timestamp taken
at insertion, and the time-to-live in seconds. -/
structure CacheEntry (α : Type) where
  data : α
  timestamp : Nat
  ttl : Nat
deriving DecidableEq

/-- The in-memory store backing `CacheManager.memoryCache`: a JavaScript
`Map<string, CacheEntry>` modelled as an insertion-ordered association list. -/
abbrev Store (α : Type) := List (String × CacheEntry α)

namespace CacheManager

variable {α : Type}

/-- Constant `maxMemoryCacheSize` (predict_match.ts 448). -/
def maxMemoryCacheSize : Nat := 1000

/-- Function `isExpired` (predict_match.ts 476-478): `Date.now() - entry.timestamp >
entry.ttl * 1000`, computed in integer arithmetic exactly as JavaScript does. -/
def isExpired (now : Nat) (e : CacheEntry α) : Bool :=
  (now : Int) - (e.timestamp : Int) > (e.ttl : Int) * 1000

/-- Model of `Map.prototype.get`: the entry stored under `key`, if any. -/
def findEntry (s : Store α) (key : String) : Option (CacheEntry α) :=
  (s.find? (fun p => p.1 == key)).map Prod.snd

/-- Model of `Map.prototype.set`: overwrite in place if the key is present (keeping its
insertion position), otherwise append at the end. -/
def mapSet (s : Store α) (key : String) (e : CacheEntry α) : Store α :=
  if s.any (fun p => p.1 == key) then
    s.map (fun p => if p.1 == key then (key, e) else p)
  else s ++ [(key, e)]

/-- Model of `Map.prototype.delete`: remove the entry stored under `key`. -/
def mapDelete (s : Store α) (key : String) : Store α :=
  s.filter (fun p => p.1 != key)

/-- First phase of `cleanupMemoryCache`: the loop deleting every expired
entry (predict_match.ts 484-488). -/
def removeExpired (now : Nat) (s : Store α) : Store α :=
  s.filter (fun p => !isExpired now p.2)

/-- Keys of the oldest `size - max` entries, in stable ascending timestamp
order (`entries.sort(...).slice(0, size - max)`, predict_match.ts 492-495). -/
def oldestKeys (s1 : Store α) : List String :=
  ((s1.mergeSort (fun a b => a.2.timestamp ≤ b.2.timestamp)).take
    (s1.length - maxMemoryCacheSize)).map Prod.fst

/-- Function `cleanupMemoryCache` (predict_match.ts 480-498): when over capacity, first
delete every expired entry, then, if still over capacity, delete the entries
with the smallest creation timestamps. -/
def cleanupMemoryCache (now : Nat) (s : Store α) : Store α :=
  if s.length ≤ maxMemoryCacheSize then s
  else if (removeExpired now s).length > maxMemoryCacheSize then
    (removeExpired now s).filter (fun p => !(oldestKeys (removeExpired now s)).contains p.1)
  else removeExpired now s

/-- Method `CacheManager.get` (predict_match.ts 500-521): returns the cached value
when a fresh entry exists; deletes the entry and misses when it is expired;
misses when absent.  The returned pair is (result, store after the call). -/
def get (now : Nat) (pfx : String) (params : List (String × String)) (s : Store α) :
    Option α × Store α :=
  let key := generateKey pfx params
  match findEntry s key with
  | some e => if !isExpired now e then (some e.data, s) else (none, mapDelete s key)
  | none => (none, s)

/-- Method `CacheManager.set` (predict_match.ts 523-540): store the entry with the
current timestamp, then run the cleanup. -/
def set (now : Nat) (pfx : String) (params : List (String × String)) (d : α) (ttl : Nat)
    (s : Store α) : Store α :=
  let key := generateKey pfx params
  cleanupMemoryCache now (mapSet s key ⟨d, now, ttl⟩)

/-- Method `CacheManager.delete` (predict_match.ts 542-551). -/
def deleteOp (pfx : String) (params : List (String × String)) (s : Store α) : Store α :=
  mapDelete s (generateKey pfx params)

/-- Method `CacheManager.invalidatePattern` (predict_match.ts 553-565): delete every
entry whose key contains the pattern as a literal substring, scanning the
keyspace in insertion order. -/
def invalidatePattern (pat : String) : Store α → Store α
  | [] => []
  | p :: rest =>
    if isSubB pat.data p.1.data then invalidatePattern pat rest
    else p :: invalidatePattern pat rest

/-- Sequential `invalidatePattern` calls, one per listed pattern. -/
def applyPatterns (pats : List String) (s : Store α) : Store α :=
  pats.foldl (fun acc p => invalidatePattern p acc) s

/-! ## Typed facade keys (predict_match.ts 567-620) -/

/-- Key used by `getPlayerStats`/`setPlayerStats` (predict_match.ts 568-574). -/
def playerStatsKey (playerId : Nat) : String :=
  generateKey "player_stats" [("playerId", toString playerId)]

/-- Pair normalization plus key construction shared by `getHeadToHead`
(predict_match.ts 576-580). -/
def getHeadToHeadKey (player1Id player2Id : Nat) : String :=
  let q := if player1Id < player2Id then (player1Id, player2Id) else (player2Id, player1Id)
  generateKey "head_to_head" [("player1Id", toString q.1), ("player2Id", toString q.2)]

/-- Pair normalization plus key construction in `setHeadToHead`
(predict_match.ts 582-586); the normalization code is duplicated there. -/
def setHeadToHeadKey (player1Id player2Id : Nat) : String :=
  let q := if player1Id < player2Id then (player1Id, player2Id) else (player2Id, player1Id)
  generateKey "head_to_head" [("player1Id", toString q.1), ("player2Id", toString q.2)]

/-- Model of `String.prototype.toLowerCase()` (ASCII case mapping, as used for
player names). -/
def jsToLower (s : String) : String := ⟨s.data.map Char.toLower⟩

/-- Model of `tournamentLevel || 'default'`: the empty string is falsy in
JavaScript, so it also falls back to `'default'`. -/
def orDefaultLevel : Option String → String
  | none => "default"
  | some s => if s = "" then "default" else s

/-- Key built by `getPrediction` and `setPrediction` (predict_match.ts
588-604): both player names lower-cased, surface and tournament level as
given. -/
def predictionKey (player1Name player2Name surface : String)
    (tournamentLevel : Option String) : String :=
  generateKey "prediction"
    [("player1Name", jsToLower player1Name), ("player2Name", jsToLower player2Name),
     ("surface", surface), ("tournamentLevel", orDefaultLevel tournamentLevel)]

/-- Key used by `get_player.ts` 23/59 for the player-by-name cache. -/
def playerDataKey (name : String) : String :=
  generateKey "player_data" [("name", jsToLower name)]

/-! ## Invalidation helpers (predict_match.ts 622-636) -/

/-- Patterns passed to `invalidatePattern` by `invalidatePlayerData(playerId)`
(predict_match.ts 623-627). -/
def invalidatePlayerDataPatterns (playerId : Nat) : List String :=
  ["player_stats:playerId:" ++ toString playerId,
   "head_to_head:player1Id:" ++ toString playerId,
   "head_to_head:player2Id:" ++ toString playerId]

/-- Method `invalidatePlayerData` (predict_match.ts 623-627). -/
def invalidatePlayerData (playerId : Nat) (s : Store α) : Store α :=
  applyPatterns (invalidatePlayerDataPatterns playerId) s

/-- Method `invalidateAllPredictions` (predict_match.ts 629-631). -/
def invalidateAllPredictions (s : Store α) : Store α :=
  invalidatePattern "prediction:" s

/-- Patterns passed to `invalidatePattern` while `processPlayerRecord`
(upload_data.ts 62-83) handles one CSV player row: the function performs a
single database upsert and contains no cache call at all, so the list is
empty. -/
def processPlayerRecordInvalidations : List String := []

/-- Patterns invalidated by `invalidateStaleCache` (auto_sync.ts 490-505):
`invalidateAllPredictions` (the `prediction:` prefix), then `all_players`,
then `predictions_list`. -/
def invalidateStaleCachePatterns : List String :=
  ["prediction:", "all_players", "predictions_list"]

/-- Function `invalidateStaleCache` (auto_sync.ts 490-505) as a store transformation;
it runs once at the end of each `autoSyncData` run (auto_sync.ts 243). -/
def invalidateStaleCache (s : Store α) : Store α :=
  applyPatterns invalidateStaleCachePatterns s

/-- Method `invalidateMatchData` (predict_match.ts 633-636). -/
def invalidateMatchData (s : Store α) : Store α :=
  applyPatterns ["matches:", "head_to_head:"] s

/-! ## Exception channel (the `try`/`catch` blocks of predict_match.ts
503-520, 526-539, 545-550, 554-564)

Each cache operation wraps its body in `try { ... } catch { ... }`.  The
translation makes the exception channel explicit with `Except`: the body of
each operation is a term of type `Except String _`, and the catch handler maps
any thrown value to the operation's fallback result (`null` for `get`, no
result for the others). -/

/-- Semantics of `try body catch (e) handler`: the value of the try-block if it does not
throw, otherwise the handler applied to the thrown exception. -/
def tryCatch {β : Type} (body : Except String β) (handler : String → β) : β :=
  match body with
  | Except.ok b => b
  | Except.error e => handler e

/-- The try-block of `get` (predict_match.ts 503-516).  Every step —
`Map.get`, the expiry check, `Map.delete` — is a total in-memory operation
that cannot throw, which the translation records by producing `Except.ok`. -/
def getTryBlock (now : Nat) (key : String) (s : Store α) :
    Except String (Option α × Store α) :=
  match findEntry s key with
  | some e =>
    if !isExpired now e then Except.ok (some e.data, s)
    else Except.ok (none, mapDelete s key)
  | none => Except.ok (none, s)

/-- Method `get` with its exception channel: the key construction happens outside the
`try`, and the catch clause returns `null` leaving the store as it was. -/
def getE (now : Nat) (pfx : String) (params : List (String × String)) (s : Store α) :
    Option α × Store α :=
  tryCatch (getTryBlock now (generateKey pfx params) s) (fun _ => (none, s))

/-- The try-block of `set` (predict_match.ts 526-539): `Map.set` followed by
the cleanup, both total. -/
def setTryBlock (now : Nat) (key : String) (d : α) (ttl : Nat) (s : Store α) :
    Except String (Store α) :=
  Except.ok (cleanupMemoryCache now (mapSet s key (CacheEntry.mk d now ttl)))

/-- Method `set` with its exception channel; the catch clause only logs, so on a
thrown exception the caller sees the store as it was. -/
def setE (now : Nat) (pfx : String) (params : List (String × String)) (d : α) (ttl : Nat)
    (s : Store α) : Store α :=
  tryCatch (setTryBlock now (generateKey pfx params) d ttl s) (fun _ => s)

/-- The try-block of `delete` (predict_match.ts 545-550). -/
def deleteTryBlock (key : String) (s : Store α) : Except String (Store α) :=
  Except.ok (mapDelete s key)

/-- Method `delete` with its exception channel. -/
def deleteE (pfx : String) (params : List (String × String)) (s : Store α) : Store α :=
  tryCatch (deleteTryBlock (generateKey pfx params) s) (fun _ => s)

/-- The try-block of `invalidatePattern` (predict_match.ts 554-561). -/
def invalidatePatternTryBlock (pat : String) (s : Store α) : Except String (Store α) :=
  Except.ok (invalidatePattern pat s)

/-- Method `invalidatePattern` with its exception channel. -/
def invalidatePatternE (pat : String) (s : Store α) : Store α :=
  tryCatch (invalidatePatternTryBlock pat s) (fun _ => s)

end CacheManager

/-- The `get` try-block always produces `Except.ok` of the pure result. -/
theorem getTryBlock_ok {α : Type} (now : Nat) (key : String) (s : Store α) :
    CacheManager.getTryBlock now key s = Except.ok
      (match CacheManager.findEntry s key with
       | some e =>
         if !CacheManager.isExpired now e then (some e.data, s)
         else (none, CacheManager.mapDelete s key)
       | none => (none, s)) := by
  unfold CacheManager.getTryBlock
  cases CacheManager.findEntry s key with
  | none => rfl
  | some e => cases hexp : CacheManager.isExpired now e <;> simp [hexp]

/-- Claim C4.  The head-to-head cache key is insensitive to the order of the
two player ids: both `getHeadToHead` and `setHeadToHead` normalize the pair to
ascending order before building the key, and they build the same key. -/
theorem headToHeadKey_symmetric (a b : Nat) :
    CacheManager.getHeadToHeadKey a b = CacheManager.getHeadToHeadKey b a ∧
    CacheManager.setHeadToHeadKey a b = CacheManager.setHeadToHeadKey b a ∧
    CacheManager.getHeadToHeadKey a b = CacheManager.setHeadToHeadKey a b := by
  have norm : ∀ x y : Nat,
      (if x < y then (x, y) else (y, x)) = (if y < x then (y, x) else (x, y)) := by
    intro x y
    rcases Nat.lt_trichotomy x y with h | h | h
    · rw [if_pos h, if_neg (by omega)]
    · subst h
      rw [if_neg (by omega)]
    · rw [if_neg (by omega), if_pos h]
  refine ⟨?_, ?_, rfl⟩
  · unfold CacheManager.getHeadToHeadKey
    rw [norm a b]
  · unfold CacheManager.setHeadToHeadKey
    rw [norm a b]

/-! ## Helper lemmas about the substring test and `invalidatePattern` -/

theorem isPrefB_of_append : ∀ p q t : List Char, isPrefB (p ++ q) t = true → isPrefB p t = true
  | [], _, _, _ => rfl
  | a :: p, q, [], h => by simp [isPrefB] at h
  | a :: p, q, b :: t, h => by
    simp only [List.cons_append, isPrefB, Bool.and_eq_true] at h ⊢
    exact ⟨h.1, isPrefB_of_append p q t h.2⟩

theorem isSubB_of_append : ∀ p q t : List Char, isSubB (p ++ q) t = true → isSubB p t = true
  | p, q, [], h => by
    have hpq : p ++ q = [] := by
      cases hc : p ++ q with
      | nil => rfl
      | cons c l => rw [hc] at h; simp [isSubB, List.isEmpty] at h
    have hp : p = [] := (List.append_eq_nil.mp hpq).1
    subst hp
    rfl
  | p, q, c :: t, h => by
    simp only [isSubB, Bool.or_eq_true] at h ⊢
    rcases h with h | h
    · exact Or.inl (isPrefB_of_append p q _ h)
    · exact Or.inr (isSubB_of_append p q t h)

/-- If a base pattern does not occur in a key, no extension of that base
pattern occurs in the key either. -/
theorem isSubB_append_false (p q t : List Char) (h : isSubB p t = false) :
    isSubB (p ++ q) t = false := by
  cases hc : isSubB (p ++ q) t with
  | false => rfl
  | true => rw [isSubB_of_append p q t hc] at h; exact h

/-- Membership characterization of `invalidatePattern`: an entry survives the
scan exactly when it was present and its key does not contain the pattern. -/
theorem mem_invalidatePattern {α : Type} (pat : String) (s : Store α) (k : String)
    (e : CacheEntry α) :
    (k, e) ∈ CacheManager.invalidatePattern pat s ↔
      (k, e) ∈ s ∧ isSubB pat.data k.data = false := by
  induction s with
  | nil => simp [CacheManager.invalidatePattern]
  | cons p rest ih =>
    simp only [CacheManager.invalidatePattern]
    split
    · rename_i h
      rw [ih]
      simp only [List.mem_cons]
      constructor
      · rintro ⟨hm, hs⟩
        exact ⟨Or.inr hm, hs⟩
      · rintro ⟨hm | hm, hs⟩
        · exfalso
          have hk : k = p.1 := congrArg Prod.fst hm
          rw [hk, h] at hs
          exact Bool.noConfusion hs
        · exact ⟨hm, hs⟩
    · rename_i h
      have hfalse : isSubB pat.data p.1.data = false := Bool.not_eq_true _ ▸ Bool.eq_false_iff.mpr h
      simp only [List.mem_cons, ih]
      constructor
      · rintro (hm | ⟨hm, hs⟩)
        · have hk : k = p.1 := congrArg Prod.fst hm
          exact ⟨Or.inl hm, by rw [hk]; exact hfalse⟩
        · exact ⟨Or.inr hm, hs⟩
      · rintro ⟨hm | hm, hs⟩
        · exact Or.inl hm
        · exact Or.inr ⟨hm, hs⟩

/-- Claim C5.  `invalidatePattern` removes exactly the entries whose key
contains the pattern as a literal substring and keeps every other entry
(key and value untouched); in particular the key `player_stats:playerId:43`
survives `invalidatePattern("player_stats:playerId:42")`. -/
theorem invalidatePattern_removes_exactly_substring_matches :
    (∀ (α : Type) (pat : String) (s : Store α) (k : String) (e : CacheEntry α),
      (k, e) ∈ CacheManager.invalidatePattern pat s ↔
        (k, e) ∈ s ∧ isSubB pat.data k.data = false) ∧
    (∀ (e : CacheEntry Nat) (s : Store Nat),
      (CacheManager.playerStatsKey 43, e) ∈ s →
        (CacheManager.playerStatsKey 43, e) ∈
          CacheManager.invalidatePattern "player_stats:playerId:42" s) := by
  constructor
  · intro α pat s k e
    exact mem_invalidatePattern pat s k e
  · intro e s hmem
    refine (mem_invalidatePattern _ s _ e).mpr ⟨hmem, ?_⟩
    have hkey : CacheManager.playerStatsKey 43 = "player_stats:playerId:43" := by decide
    rw [hkey]
    decide

/-- Witness for C5 at a concrete two-entry store: the matching key is removed
and the non-matching key survives. -/
theorem invalidatePattern_removes_exactly_substring_matches_witness :
    (CacheManager.playerStatsKey 43, CacheEntry.mk 7 0 600) ∈
      ([(CacheManager.playerStatsKey 42, CacheEntry.mk 5 0 600),
        (CacheManager.playerStatsKey 43, CacheEntry.mk 7 0 600)] : Store Nat) ∧
    (CacheManager.playerStatsKey 43, CacheEntry.mk 7 0 600) ∈
      CacheManager.invalidatePattern "player_stats:playerId:42"
        ([(CacheManager.playerStatsKey 42, CacheEntry.mk 5 0 600),
          (CacheManager.playerStatsKey 43, CacheEntry.mk 7 0 600)] : Store Nat) :=
  ⟨by decide,
   invalidatePattern_removes_exactly_substring_matches.2 (CacheEntry.mk 7 0 600) _ (by decide)⟩

/-- Membership characterization of a sequence of `invalidatePattern` calls. -/
theorem mem_applyPatterns {α : Type} (ps : List String) (s : Store α) (k : String)
    (e : CacheEntry α) :
    (k, e) ∈ CacheManager.applyPatterns ps s ↔
      (k, e) ∈ s ∧ ∀ p ∈ ps, isSubB p.data k.data = false := by
  induction ps generalizing s with
  | nil => simp [CacheManager.applyPatterns]
  | cons p rest ih =>
    have : CacheManager.applyPatterns (p :: rest) s =
        CacheManager.applyPatterns rest (CacheManager.invalidatePattern p s) := rfl
    rw [this, ih, mem_invalidatePattern]
    constructor
    · rintro ⟨⟨hm, hp⟩, hall⟩
      refine ⟨hm, ?_⟩
      intro q hq
      rcases List.mem_cons.mp hq with h | h
      · rw [h]; exact hp
      · exact hall q h
    · rintro ⟨hm, hall⟩
      exact ⟨⟨hm, hall p (List.mem_cons_self p rest)⟩, fun q hq => hall q (List.mem_cons_of_mem p hq)⟩

/-- Claim C8.  The concrete prediction entry named in the spec survives
`invalidatePlayerData(i)` for every player id `i` (its key never contains any
of the three patterns, whose bases `player_stats:playerId:`,
`head_to_head:player1Id:`, `head_to_head:player2Id:` do not occur in it), and
is removed by `invalidateAllPredictions`. -/
theorem prediction_entry_survives_player_invalidation :
    CacheManager.predictionKey "djokovic" "nadal" "clay" none =
      "prediction:player1Name:djokovic|player2Name:nadal|surface:clay|tournamentLevel:default" ∧
    (∀ (i : Nat) (e : CacheEntry Nat) (s : Store Nat),
      (CacheManager.predictionKey "djokovic" "nadal" "clay" none, e) ∈ s →
        (CacheManager.predictionKey "djokovic" "nadal" "clay" none, e) ∈
          CacheManager.invalidatePlayerData i s) ∧
    (∀ e : CacheEntry Nat,
      CacheManager.invalidateAllPredictions
        [(CacheManager.predictionKey "djokovic" "nadal" "clay" none, e)] = []) := by
  have hkey : CacheManager.predictionKey "djokovic" "nadal" "clay" none =
      "prediction:player1Name:djokovic|player2Name:nadal|surface:clay|tournamentLevel:default" := by
    decide
  refine ⟨hkey, ?_, ?_⟩
  · intro i e s hmem
    rw [hkey] at hmem ⊢
    have hsub : ∀ base : String, isSubB base.data
        ("prediction:player1Name:djokovic|player2Name:nadal|surface:clay|tournamentLevel:default" : String).data = false →
        isSubB (base ++ toString i).data
          ("prediction:player1Name:djokovic|player2Name:nadal|surface:clay|tournamentLevel:default" : String).data = false := by
      intro base hb
      rw [String.data_append]
      exact isSubB_append_false _ _ _ hb
    refine (mem_applyPatterns _ s _ e).mpr ⟨hmem, ?_⟩
    intro p hp
    simp only [CacheManager.invalidatePlayerDataPatterns, List.mem_cons,
      List.not_mem_nil, or_false] at hp
    rcases hp with h | h | h
    · rw [h]; exact hsub "player_stats:playerId:" (by decide)
    · rw [h]; exact hsub "head_to_head:player1Id:" (by decide)
    · rw [h]; exact hsub "head_to_head:player2Id:" (by decide)
  · intro e
    rw [hkey]
    apply List.eq_nil_iff_forall_not_mem.mpr
    rintro ⟨k, v⟩ hx
    obtain ⟨hmem, hsubf⟩ :=
      (mem_invalidatePattern "prediction:" _ k v).mp hx
    have hk : k =
        "prediction:player1Name:djokovic|player2Name:nadal|surface:clay|tournamentLevel:default" := by
      simpa using congrArg Prod.fst (List.mem_singleton.mp hmem)
    rw [hk] at hsubf
    exact absurd hsubf (by decide)

/-- Witness for C8 applied at a concrete player id and store. -/
theorem prediction_entry_survives_player_invalidation_witness :
    (CacheManager.predictionKey "djokovic" "nadal" "clay" none, CacheEntry.mk 1 0 3600) ∈
      ([(CacheManager.predictionKey "djokovic" "nadal" "clay" none, CacheEntry.mk 1 0 3600)] :
        Store Nat) ∧
    (CacheManager.predictionKey "djokovic" "nadal" "clay" none, CacheEntry.mk 1 0 3600) ∈
      CacheManager.invalidatePlayerData 42
        ([(CacheManager.predictionKey "djokovic" "nadal" "clay" none, CacheEntry.mk 1 0 3600)] :
          Store Nat) :=
  ⟨by decide,
   prediction_entry_survives_player_invalidation.2.1 42 (CacheEntry.mk 1 0 3600) _ (by decide)⟩

/-- Claim C10.  Substring-based invalidation has collateral damage across
distinct player ids: `invalidatePlayerData(42)` also removes the
`player_stats` entry of player 421, because the decimal rendering of 421
begins with the digits of 42. -/
theorem invalidatePlayerData_collateral_removal :
    (42 : Nat) ≠ 421 ∧
    isSubB ("player_stats:playerId:" ++ toString (42 : Nat)).data
      (CacheManager.playerStatsKey 421).data = true ∧
    (∀ e : CacheEntry Nat,
      CacheManager.invalidatePlayerData 42 [(CacheManager.playerStatsKey 421, e)] = []) := by
  refine ⟨by decide, by decide, ?_⟩
  intro e
  have hkey : CacheManager.playerStatsKey 421 = "player_stats:playerId:421" := by decide
  rw [hkey]
  apply List.eq_nil_iff_forall_not_mem.mpr
  rintro ⟨k, v⟩ hx
  obtain ⟨hmem, hall⟩ := (mem_applyPatterns _ _ k v).mp hx
  have hk : k = "player_stats:playerId:421" := by
    simpa using congrArg Prod.fst (List.mem_singleton.mp hmem)
  have hfalse := hall ("player_stats:playerId:" ++ toString (42 : Nat))
    (by simp [CacheManager.invalidatePlayerDataPatterns])
  rw [hk] at hfalse
  exact absurd hfalse (by decide)

/-- The expiry test in natural-number arithmetic: `isExpired` holds exactly
when the elapsed milliseconds strictly exceed `ttl * 1000`.  (For `now <
timestamp` both sides are false: the JavaScript subtraction is negative and
the truncated subtraction is zero.) -/
theorem isExpired_iff {α : Type} (now : Nat) (e : CacheEntry α) :
    CacheManager.isExpired now e = true ↔ e.ttl * 1000 < now - e.timestamp := by
  simp only [CacheManager.isExpired, gt_iff_lt, decide_eq_true_eq]
  omega

/-- Counterexample to claim C1 as stated: with an entry created at time 0 and
`ttl_seconds = 1`, a `get` at `now = 1000`ms finds elapsed time exactly equal
to the ttl — not strictly less — yet the code returns the stored value,
because `isExpired` uses a strict `>` comparison. -/
theorem get_ttl_boundary_counterexample :
    (CacheManager.get 1000 "p" [] [(generateKey "p" [], CacheEntry.mk (0 : Nat) 0 1)]).1 =
      some 0 ∧ ¬ ((1000 : Nat) - 0 < 1 * 1000) := by decide

/-- Claim C1 as amended.  `get` returns the stored value exactly when an entry
for the key exists and the elapsed time is at most the ttl (`now - created_at
≤ ttl * 1000` ms); when the entry exists but is expired (elapsed strictly
greater than the ttl) the call misses and deletes the entry; a fresh hit or an
absent key leaves the store unchanged. -/
theorem get_lazy_expiry_spec (α : Type) (now : Nat) (pfx : String)
    (params : List (String × String)) (s : Store α) :
    (∀ v : α, (CacheManager.get now pfx params s).1 = some v ↔
      ∃ e : CacheEntry α, CacheManager.findEntry s (generateKey pfx params) = some e ∧
        now - e.timestamp ≤ e.ttl * 1000 ∧ e.data = v) ∧
    (∀ e : CacheEntry α, CacheManager.findEntry s (generateKey pfx params) = some e →
      (e.ttl * 1000 < now - e.timestamp →
        (CacheManager.get now pfx params s).2 =
          CacheManager.mapDelete s (generateKey pfx params)) ∧
      (now - e.timestamp ≤ e.ttl * 1000 → (CacheManager.get now pfx params s).2 = s)) ∧
    (CacheManager.findEntry s (generateKey pfx params) = none →
      (CacheManager.get now pfx params s).2 = s) := by
  cases hfe : CacheManager.findEntry s (generateKey pfx params) with
  | none =>
    have hget : CacheManager.get now pfx params s = (none, s) := by
      simp [CacheManager.get, hfe]
    refine ⟨?_, ?_, fun _ => by rw [hget]⟩
    · intro v
      rw [hget]
      simp
    · intro e he
      exact Option.noConfusion he
  | some e =>
    cases hexp : CacheManager.isExpired now e with
    | false =>
      have hfresh : now - e.timestamp ≤ e.ttl * 1000 := by
        have hne : ¬ CacheManager.isExpired now e = true := by rw [hexp]; exact Bool.noConfusion
        have := (isExpired_iff now e).not.mp hne
        omega
      have hget : CacheManager.get now pfx params s = (some e.data, s) := by
        simp [CacheManager.get, hfe, hexp]
      refine ⟨?_, ?_, fun h => Option.noConfusion h⟩
      · intro v
        rw [hget]
        constructor
        · intro hv
          exact ⟨e, rfl, hfresh, Option.some.inj hv⟩
        · rintro ⟨e', he', _, hdata⟩
          rw [← Option.some.inj he'] at hdata
          rw [hdata]
      · intro e' he'
        have hee : e' = e := (Option.some.inj he').symm
        subst hee
        refine ⟨fun hlt => absurd hfresh (by omega), fun _ => by rw [hget]⟩
    | true =>
      have hstale : e.ttl * 1000 < now - e.timestamp := (isExpired_iff now e).mp hexp
      have hget : CacheManager.get now pfx params s =
          (none, CacheManager.mapDelete s (generateKey pfx params)) := by
        simp [CacheManager.get, hfe, hexp]
      refine ⟨?_, ?_, fun h => Option.noConfusion h⟩
      · intro v
        rw [hget]
        constructor
        · intro hv
          exact absurd hv (by simp)
        · rintro ⟨e', he', hfr, _⟩
          rw [← Option.some.inj he'] at hfr
          exact absurd hfr (by omega)
      · intro e' he'
        have hee : e' = e := (Option.some.inj he').symm
        subst hee
        refine ⟨fun _ => by rw [hget], fun hle => absurd hle (by omega)⟩

/-- Witness for the amended C1, exercising both the expired-delete branch and
the fresh-hit branch on concrete stores. -/
theorem get_lazy_expiry_spec_witness :
    (CacheManager.get 5000 "p" [] [(generateKey "p" [], CacheEntry.mk (7 : Nat) 0 1)]).2 =
      CacheManager.mapDelete [(generateKey "p" [], CacheEntry.mk (7 : Nat) 0 1)]
        (generateKey "p" []) ∧
    ((CacheManager.get 500 "p" [] [(generateKey "p" [], CacheEntry.mk (7 : Nat) 0 1)]).1 =
      some 7 ↔ ∃ e : CacheEntry Nat,
        CacheManager.findEntry [(generateKey "p" [], CacheEntry.mk (7 : Nat) 0 1)]
          (generateKey "p" []) = some e ∧ 500 - e.timestamp ≤ e.ttl * 1000 ∧ e.data = 7) :=
  ⟨((get_lazy_expiry_spec Nat 5000 "p" [] _).2.1 (CacheEntry.mk 7 0 1) (by decide)).1
      (by decide),
   (get_lazy_expiry_spec Nat 500 "p" [] _).1 7⟩

/-! ## Capacity bound and eviction order (`cleanupMemoryCache`) -/

/-- Filtering out the elements satisfying `q` leaves `length - countP q`
elements, stated without truncated subtraction. -/
theorem length_filter_not_add_countP {α : Type} (q : α → Bool) : ∀ l : List α,
    (l.filter (fun a => !q a)).length + l.countP q = l.length
  | [] => rfl
  | a :: t => by
    have ih := length_filter_not_add_countP q t
    cases hq : q a
    · simp [List.filter_cons, List.countP_cons, hq]
      omega
    · simp [List.filter_cons, List.countP_cons, hq]
      omega

/-- Dropping the entries whose keys are among the oldest `size - max` keys
brings an over-capacity store to at most `maxMemoryCacheSize` entries. -/
theorem length_filter_oldest {α : Type} (s1 : Store α)
    (h1 : CacheManager.maxMemoryCacheSize < s1.length) :
    (s1.filter (fun p => !(CacheManager.oldestKeys s1).contains p.1)).length ≤
      CacheManager.maxMemoryCacheSize := by
  have hperm : List.Perm (s1.mergeSort (fun a b => a.2.timestamp ≤ b.2.timestamp)) s1 :=
    List.mergeSort_perm s1 _
  set sorted := s1.mergeSort (fun a b => a.2.timestamp ≤ b.2.timestamp) with hsortdef
  set m := s1.length - CacheManager.maxMemoryCacheSize with hm
  set removedKeys := (sorted.take m).map Prod.fst with hK
  have hKeys : CacheManager.oldestKeys s1 = removedKeys := rfl
  have hlen_sorted : sorted.length = s1.length := hperm.length_eq
  have hm_le : m ≤ sorted.length := by omega
  have htake_all : ∀ p ∈ sorted.take m, (removedKeys.contains p.1) = true := by
    intro p hp
    exact List.elem_iff.mpr (List.mem_map.mpr ⟨p, hp, rfl⟩)
  have hcount_take :
      (sorted.take m).countP (fun p => removedKeys.contains p.1) = m := by
    rw [List.countP_eq_length.mpr htake_all, List.length_take_of_le hm_le]
  have hcount_sorted :
      m ≤ sorted.countP (fun p => removedKeys.contains p.1) := by
    conv_rhs => rw [← List.take_append_drop m sorted]
    rw [List.countP_append, hcount_take]
    omega
  have hcount_s1 :
      m ≤ s1.countP (fun p => removedKeys.contains p.1) := by
    rw [← hperm.countP_eq]
    exact hcount_sorted
  have hsplit := length_filter_not_add_countP
    (fun p : String × CacheEntry α => removedKeys.contains p.1) s1
  rw [hKeys]
  omega

/-- The cleanup never returns more than `maxMemoryCacheSize` entries. -/
theorem length_cleanup_le {α : Type} (now : Nat) (s : Store α) :
    (CacheManager.cleanupMemoryCache now s).length ≤ CacheManager.maxMemoryCacheSize := by
  unfold CacheManager.cleanupMemoryCache
  split
  · assumption
  · split
    · rename_i h1
      exact length_filter_oldest _ (by omega)
    · rename_i h1
      omega

/-- Claim C2, part (a), as a standalone bound: the store holds at most 1000
entries after any `set`. -/
theorem length_set_le {α : Type} (now : Nat) (pfx : String)
    (params : List (String × String)) (d : α) (ttl : Nat) (s : Store α) :
    (CacheManager.set now pfx params d ttl s).length ≤ CacheManager.maxMemoryCacheSize :=
  length_cleanup_le now _

/-- When the store is over capacity, every entry surviving the cleanup is
unexpired: the expired entries are dropped first. -/
theorem cleanup_keeps_only_fresh {α : Type} (now : Nat) (s : Store α)
    (hover : CacheManager.maxMemoryCacheSize < s.length) :
    ∀ p ∈ CacheManager.cleanupMemoryCache now s, CacheManager.isExpired now p.2 = false := by
  intro p hp
  unfold CacheManager.cleanupMemoryCache at hp
  rw [if_neg (by omega)] at hp
  split at hp
  · have hp1 : p ∈ CacheManager.removeExpired now s := (List.mem_filter.mp hp).1
    unfold CacheManager.removeExpired at hp1
    have := (List.mem_filter.mp hp1).2
    simpa using this
  · unfold CacheManager.removeExpired at hp
    have := (List.mem_filter.mp hp).2
    simpa using this

/-- Removing the keys of the first `m` entries from a store with
duplicate-free keys removes exactly those first `m` entries. -/
theorem filter_not_contains_take_keys {α : Type} :
    ∀ (s : Store α) (m : Nat), (s.map Prod.fst).Nodup →
      s.filter (fun p => !(((s.take m).map Prod.fst).contains p.1)) = s.drop m
  | [], m, _ => by simp
  | a :: t, 0, _ => by
    apply List.filter_eq_self.mpr
    intro b _
    simp [List.contains]
  | a :: t, m + 1, hnd => by
    have hhead : a.1 ∉ t.map Prod.fst := (List.nodup_cons.mp hnd).1
    have hnd' : (t.map Prod.fst).Nodup := (List.nodup_cons.mp hnd).2
    have hpred : ∀ p ∈ t,
        (!((((a :: t).take (m + 1)).map Prod.fst).contains p.1)) =
          (!(((t.take m).map Prod.fst).contains p.1)) := by
      intro p hp
      have hne : (p.1 == a.1) = false := by
        apply beq_false_of_ne
        intro hEq
        exact hhead (hEq ▸ List.mem_map.mpr ⟨p, hp, rfl⟩)
      simp only [List.take_succ_cons, List.map_cons, List.contains_cons, hne, Bool.false_or]
    calc (a :: t).filter (fun p => !((((a :: t).take (m + 1)).map Prod.fst).contains p.1))
        = t.filter (fun p => !((((a :: t).take (m + 1)).map Prod.fst).contains p.1)) := by
          rw [List.filter_cons]
          have : ((((a :: t).take (m + 1)).map Prod.fst).contains a.1) = true := by
            simp [List.take_succ_cons]
          rw [this]
          simp
      _ = t.filter (fun p => !(((t.take m).map Prod.fst).contains p.1)) :=
          List.filter_congr hpred
      _ = t.drop m := filter_not_contains_take_keys t m hnd'
      _ = (a :: t).drop (m + 1) := by simp

/-- When nothing is expired and the entries are already in ascending
timestamp order with duplicate-free keys, the cleanup keeps exactly the
newest `maxMemoryCacheSize` entries, dropping the oldest-created ones. -/
theorem cleanup_drops_oldest {α : Type} (now : Nat) (s : Store α)
    (hnd : (s.map Prod.fst).Nodup)
    (hfresh : ∀ p ∈ s, CacheManager.isExpired now p.2 = false)
    (hsorted : s.Pairwise (fun a b => a.2.timestamp ≤ b.2.timestamp)) :
    CacheManager.cleanupMemoryCache now s =
      s.drop (s.length - CacheManager.maxMemoryCacheSize) := by
  have hs1 : CacheManager.removeExpired now s = s := by
    unfold CacheManager.removeExpired
    apply List.filter_eq_self.mpr
    intro p hp
    rw [hfresh p hp]
    rfl
  unfold CacheManager.cleanupMemoryCache
  rw [hs1]
  split
  · rename_i h
    rw [Nat.sub_eq_zero_of_le h, List.drop_zero]
  · rename_i h
    have hmerge : s.mergeSort (fun a b => a.2.timestamp ≤ b.2.timestamp) = s := by
      apply List.mergeSort_of_sorted
      exact hsorted.imp (fun hab => by simpa using hab)
    rw [if_pos (by omega)]
    unfold CacheManager.oldestKeys
    rw [hmerge]
    exact filter_not_contains_take_keys s (s.length - CacheManager.maxMemoryCacheSize) hnd

/-- Claim C2.  (a) After every `set` the store holds at most 1000 entries.
(b) When an over-capacity cleanup runs, already-expired entries are dropped
first: every survivor is unexpired.  (c) Inserting a fresh key into a store of
unexpired entries in creation order keeps exactly the newest entries: the
oldest-created ones are dropped, so the most recently inserted survive. -/
theorem set_capacity_and_eviction :
    (∀ (α : Type) (now : Nat) (pfx : String) (params : List (String × String)) (d : α)
      (ttl : Nat) (s : Store α),
      (CacheManager.set now pfx params d ttl s).length ≤ CacheManager.maxMemoryCacheSize) ∧
    (∀ (α : Type) (now : Nat) (s : Store α), CacheManager.maxMemoryCacheSize < s.length →
      ∀ p ∈ CacheManager.cleanupMemoryCache now s,
        CacheManager.isExpired now p.2 = false) ∧
    (∀ (α : Type) (now : Nat) (pfx : String) (params : List (String × String)) (d : α)
      (ttl : Nat) (s : Store α),
      (s.map Prod.fst).Nodup →
      generateKey pfx params ∉ s.map Prod.fst →
      (∀ p ∈ s, CacheManager.isExpired now p.2 = false) →
      s.Pairwise (fun a b => a.2.timestamp ≤ b.2.timestamp) →
      (∀ p ∈ s, p.2.timestamp ≤ now) →
      CacheManager.set now pfx params d ttl s =
        (s ++ [(generateKey pfx params, CacheEntry.mk d now ttl)]).drop
          ((s.length + 1) - CacheManager.maxMemoryCacheSize)) := by
  refine ⟨fun α now pfx params d ttl s => length_set_le now pfx params d ttl s,
    fun α now s h => cleanup_keeps_only_fresh now s h,
    fun α now pfx params d ttl s hnd hfreshkey hfresh hsorted hts => ?_⟩
  have hmap : CacheManager.mapSet s (generateKey pfx params) (CacheEntry.mk d now ttl) =
      s ++ [(generateKey pfx params, CacheEntry.mk d now ttl)] := by
    unfold CacheManager.mapSet
    rw [if_neg]
    intro hany
    obtain ⟨p, hp, hpk⟩ := List.any_eq_true.mp hany
    exact hfreshkey (by
      have : p.1 = generateKey pfx params := by simpa using hpk
      exact this ▸ List.mem_map.mpr ⟨p, hp, rfl⟩)
  show CacheManager.cleanupMemoryCache now
      (CacheManager.mapSet s (generateKey pfx params) (CacheEntry.mk d now ttl)) = _
  rw [hmap]
  have hlen : (s ++ [(generateKey pfx params, CacheEntry.mk d now ttl)]).length =
      s.length + 1 := by simp
  have := cleanup_drops_oldest now (s ++ [(generateKey pfx params, CacheEntry.mk d now ttl)])
    (by
      rw [List.map_append]
      refine List.Nodup.append hnd (List.nodup_singleton _) ?_
      intro a ha hb
      have hEq : a = generateKey pfx params := by simpa using hb
      rw [hEq] at ha
      exact hfreshkey ha)
    (by
      intro p hp
      rcases List.mem_append.mp hp with hp | hp
      · exact hfresh p hp
      · rw [List.mem_singleton.mp hp]
        simp only [CacheManager.isExpired]
        rw [decide_eq_false_iff_not]
        omega)
    (by
      rw [List.pairwise_append]
      refine ⟨hsorted, List.pairwise_singleton _ _, ?_⟩
      intro p hp q hq
      rw [List.mem_singleton.mp hq]
      exact hts p hp)
  rw [this, hlen]

/-- Witness for C2 at a concrete one-entry store and a fresh key. -/
theorem set_capacity_and_eviction_witness :
    (([(("a:" : String), CacheEntry.mk (5 : Nat) 10 100)] : Store Nat).map Prod.fst).Nodup ∧
    CacheManager.set 20 "p" [] (9 : Nat) 60 [(("a:" : String), CacheEntry.mk 5 10 100)] =
      ([(("a:" : String), CacheEntry.mk (5 : Nat) 10 100)] ++
        [(generateKey "p" [], CacheEntry.mk (9 : Nat) 20 60)]).drop
          ((1 + 1) - CacheManager.maxMemoryCacheSize) :=
  ⟨by decide,
   set_capacity_and_eviction.2.2 Nat 20 "p" [] 9 60 _
     (by decide) (by decide) (by decide) (by decide) (by decide)⟩

/-- Counterexample to claim C6 as stated: a player record processed by the
CSV upload path (`processPlayerRecord`) triggers no cache invalidation at
all — in particular the `all_players` pattern is not invalidated, and the
cached full player list (key `all_players:`) survives the upload untouched. -/
theorem upload_player_no_invalidation_counterexample :
    "all_players" ∉ CacheManager.processPlayerRecordInvalidations ∧
    CacheManager.applyPatterns CacheManager.processPlayerRecordInvalidations
      [(("all_players:" : String), CacheEntry.mk (0 : Nat) 0 900)] =
      [(("all_players:" : String), CacheEntry.mk (0 : Nat) 0 900)] := by
  exact ⟨List.not_mem_nil _, rfl⟩

/-- Claim C6 as amended.  The CSV upload path performs no cache invalidation;
the `all_players` pattern is invalidated only by the sync job's
`invalidateStaleCache` pass, which removes the cached full player list; and no
code path invalidates the `player_data` entry keyed by a player name: such an
entry survives both `invalidatePlayerData` (for every player id) and
`invalidateStaleCache`. -/
theorem player_write_invalidation_spec :
    CacheManager.processPlayerRecordInvalidations = [] ∧
    "all_players" ∈ CacheManager.invalidateStaleCachePatterns ∧
    (∀ e : CacheEntry Nat,
      CacheManager.invalidateStaleCache [(("all_players:" : String), e)] = []) ∧
    (∀ (i : Nat) (e : CacheEntry Nat) (s : Store Nat),
      (CacheManager.playerDataKey "novak djokovic", e) ∈ s →
        (CacheManager.playerDataKey "novak djokovic", e) ∈
          CacheManager.invalidatePlayerData i s ∧
        (CacheManager.playerDataKey "novak djokovic", e) ∈
          CacheManager.invalidateStaleCache s) := by
  have hkey : CacheManager.playerDataKey "novak djokovic" =
      "player_data:name:novak djokovic" := by decide
  refine ⟨rfl, by decide, ?_, ?_⟩
  · intro e
    apply List.eq_nil_iff_forall_not_mem.mpr
    rintro ⟨k, v⟩ hx
    obtain ⟨hmem, hall⟩ := (mem_applyPatterns _ _ k v).mp hx
    have hk : k = "all_players:" := by
      simpa using congrArg Prod.fst (List.mem_singleton.mp hmem)
    have hfalse := hall "all_players" (by decide)
    rw [hk] at hfalse
    exact absurd hfalse (by decide)
  · intro i e s hmem
    rw [hkey] at hmem ⊢
    constructor
    · refine (mem_applyPatterns _ s _ e).mpr ⟨hmem, ?_⟩
      intro p hp
      simp only [CacheManager.invalidatePlayerDataPatterns, List.mem_cons,
        List.not_mem_nil, or_false] at hp
      have hsub : ∀ base : String,
          isSubB base.data (("player_data:name:novak djokovic" : String)).data = false →
          isSubB (base ++ toString i).data
            (("player_data:name:novak djokovic" : String)).data = false := by
        intro base hb
        rw [String.data_append]
        exact isSubB_append_false _ _ _ hb
      rcases hp with h | h | h
      · rw [h]; exact hsub "player_stats:playerId:" (by decide)
      · rw [h]; exact hsub "head_to_head:player1Id:" (by decide)
      · rw [h]; exact hsub "head_to_head:player2Id:" (by decide)
    · refine (mem_applyPatterns _ s _ e).mpr ⟨hmem, ?_⟩
      intro p hp
      simp only [CacheManager.invalidateStaleCachePatterns, List.mem_cons,
        List.not_mem_nil, or_false] at hp
      rcases hp with h | h | h
      · rw [h]; decide
      · rw [h]; decide
      · rw [h]; decide

/-- Witness for the amended C6 at a concrete player id and store. -/
theorem player_write_invalidation_spec_witness :
    (CacheManager.playerDataKey "novak djokovic", CacheEntry.mk (3 : Nat) 0 600) ∈
      ([(CacheManager.playerDataKey "novak djokovic", CacheEntry.mk (3 : Nat) 0 600)] :
        Store Nat) ∧
    (CacheManager.playerDataKey "novak djokovic", CacheEntry.mk (3 : Nat) 0 600) ∈
      CacheManager.invalidatePlayerData 5
        [(CacheManager.playerDataKey "novak djokovic", CacheEntry.mk (3 : Nat) 0 600)] :=
  ⟨by decide,
   (player_write_invalidation_spec.2.2.2 5 (CacheEntry.mk 3 0 600) _ (by decide)).1⟩

/-- Claim C9.  None of the cache operations lets an exception escape to the
caller: every try-block evaluates to `Except.ok` (all steps are total
in-memory operations, and the key construction performed outside the `try`
is a total function of scalar parameters), the wrapped operations agree with
the pure ones, and the catch handler of `get` turns any internal failure into
a `null` miss that leaves the store untouched. -/
theorem cache_ops_never_throw :
    (∀ (α : Type) (now : Nat) (pfx : String) (params : List (String × String)) (s : Store α),
      (∃ r, CacheManager.getTryBlock now (generateKey pfx params) s = Except.ok r) ∧
      CacheManager.getE now pfx params s = CacheManager.get now pfx params s) ∧
    (∀ (α : Type) (now : Nat) (pfx : String) (params : List (String × String)) (d : α)
      (ttl : Nat) (s : Store α),
      (∃ r, CacheManager.setTryBlock now (generateKey pfx params) d ttl s = Except.ok r) ∧
      CacheManager.setE now pfx params d ttl s = CacheManager.set now pfx params d ttl s) ∧
    (∀ (α : Type) (pfx : String) (params : List (String × String)) (s : Store α),
      (∃ r, CacheManager.deleteTryBlock (generateKey pfx params) s = Except.ok r) ∧
      CacheManager.deleteE pfx params s = CacheManager.deleteOp pfx params s) ∧
    (∀ (α : Type) (pat : String) (s : Store α),
      (∃ r, CacheManager.invalidatePatternTryBlock pat s = Except.ok r) ∧
      CacheManager.invalidatePatternE pat s = CacheManager.invalidatePattern pat s) ∧
    (∀ (α : Type) (s : Store α) (msg : String),
      CacheManager.tryCatch (Except.error msg) (fun _ => ((none : Option α), s)) = (none, s)) := by
  refine ⟨?_, ?_, ?_, ?_, fun α s msg => rfl⟩
  · intro α now pfx params s
    refine ⟨⟨_, getTryBlock_ok now (generateKey pfx params) s⟩, ?_⟩
    unfold CacheManager.getE
    rw [getTryBlock_ok]
    unfold CacheManager.tryCatch CacheManager.get
    rfl
  · intro α now pfx params d ttl s
    exact ⟨⟨_, rfl⟩, rfl⟩
  · intro α pfx params s
    exact ⟨⟨_, rfl⟩, rfl⟩
  · intro α pat s
    exact ⟨⟨_, rfl⟩, rfl⟩

/-! ## Order sensitivity of prediction keys (claim C7)

The argument: both player-name values in a prediction key are lower-cased, so
they cannot contain the upper-case letter `N`; the literal text between the
two name values contains exactly one `N` (in `player2Name`), at a fixed
offset, so the position of the first `N` in the key determines the length of
the first name value, and equal keys force equal name values. -/

theorem toNat_ofNat_of_lt {n : Nat} (h : n < 55296) : (Char.ofNat n).toNat = n := by
  have hv : n.isValidChar := Or.inl h
  simp [Char.ofNat, hv, Char.ofNatAux, Char.toNat, UInt32.toNat]

/-- ASCII lower-casing never produces the upper-case letter `N`. -/
theorem toLower_ne_N (c : Char) : Char.toLower c ≠ 'N' := by
  intro h
  have h78 : (Char.toLower c).toNat = 78 := by rw [h]; rfl
  by_cases hc : c.toNat ≥ 65 ∧ c.toNat ≤ 90
  · simp only [Char.toLower, if_pos hc] at h78
    rw [toNat_ofNat_of_lt (by omega)] at h78
    omega
  · simp only [Char.toLower, if_neg hc] at h78
    exact hc ⟨by omega, by omega⟩

theorem string_ext {s t : String} (h : s.data = t.data) : s = t := by
  cases s
  cases t
  simp only at h
  rw [h]

/-- No lower-cased string contains the character `N`. -/
theorem not_N_mem_jsToLower (s : String) : 'N' ∉ (CacheManager.jsToLower s).data := by
  intro hm
  obtain ⟨c, _, hc⟩ := List.mem_map.mp hm
  exact toLower_ne_N c hc

/-- Index of the first occurrence of a character (length of the list when the
character is absent). -/
def idxOfN (c : Char) : List Char → Nat
  | [] => 0
  | a :: t => if a == c then 0 else idxOfN c t + 1

theorem idxOfN_append_of_not_mem (c : Char) : ∀ (x y : List Char), c ∉ x →
    idxOfN c (x ++ y) = x.length + idxOfN c y
  | [], y, _ => by simp [idxOfN]
  | a :: x, y, h => by
    have hne : (a == c) = false := by
      apply beq_false_of_ne
      intro hEq
      exact h (hEq ▸ List.mem_cons_self a x)
    have ih := idxOfN_append_of_not_mem c x y (fun hm => h (List.mem_cons_of_mem a hm))
    simp [List.cons_append, idxOfN, hne, ih]
    omega

theorem idxOfN_append_of_mem (c : Char) : ∀ (x y : List Char), c ∈ x →
    idxOfN c (x ++ y) = idxOfN c x
  | [], _, h => absurd h (List.not_mem_nil c)
  | a :: x, y, h => by
    by_cases hac : a = c
    · simp [idxOfN, hac]
    · have hcx : c ∈ x := by
        rcases List.mem_cons.mp h with hEq | hm
        · exact absurd hEq.symm hac
        · exact hm
      have hne : (a == c) = false := beq_false_of_ne hac
      simp [idxOfN, hne, idxOfN_append_of_mem c x y hcx]

/-- The prediction key written out as explicit string concatenation (the
parameter names in sorted order are `player1Name`, `player2Name`, `surface`,
`tournamentLevel`). -/
theorem predictionKey_eq (a b s : String) (t : Option String) :
    CacheManager.predictionKey a b s t =
      "prediction" ++ ":" ++ (("player1Name" ++ ":" ++ CacheManager.jsToLower a) ++ "|" ++
        (("player2Name" ++ ":" ++ CacheManager.jsToLower b) ++ "|" ++
          (("surface" ++ ":" ++ s) ++ "|" ++
            ("tournamentLevel" ++ ":" ++ CacheManager.orDefaultLevel t)))) := by
  unfold CacheManager.predictionKey generateKey
  have hmap : ([("player1Name", CacheManager.jsToLower a),
      ("player2Name", CacheManager.jsToLower b), ("surface", s),
      ("tournamentLevel", CacheManager.orDefaultLevel t)].map Prod.fst) =
      ["player1Name", "player2Name", "surface", "tournamentLevel"] := rfl
  rw [hmap]
  rw [show List.insertionSort strLe ["player1Name", "player2Name", "surface", "tournamentLevel"] =
    ["player1Name", "player2Name", "surface", "tournamentLevel"] from by decide]
  rfl

/-- Claim C7.  For distinct lower-cased player names, the prediction cache key
for `(a, b)` differs from the key for `(b, a)`: prediction keys are
order-sensitive in the player arguments. -/
theorem predictionKey_order_sensitive (a b s : String) (t : Option String)
    (hne : CacheManager.jsToLower a ≠ CacheManager.jsToLower b) :
    CacheManager.predictionKey a b s t ≠ CacheManager.predictionKey b a s t := by
  intro hEq
  rw [predictionKey_eq a b s t, predictionKey_eq b a s t] at hEq
  have hdata := congrArg String.data hEq
  simp only [String.data_append, List.append_assoc] at hdata
  have h1 := List.append_cancel_left hdata
  have h2 := List.append_cancel_left h1
  have h3 := List.append_cancel_left h2
  have h4 := List.append_cancel_left h3
  have hNa : 'N' ∉ (CacheManager.jsToLower a).data := not_N_mem_jsToLower a
  have hNb : 'N' ∉ (CacheManager.jsToLower b).data := not_N_mem_jsToLower b
  have hNbar : 'N' ∉ ("|" : String).data := by decide
  have hNp2 : 'N' ∈ ("player2Name" : String).data := by decide
  have hidx := congrArg (idxOfN 'N') h4
  rw [idxOfN_append_of_not_mem 'N' _ _ hNa, idxOfN_append_of_not_mem 'N' _ _ hNb,
    idxOfN_append_of_not_mem 'N' _ _ hNbar, idxOfN_append_of_not_mem 'N' _ _ hNbar,
    idxOfN_append_of_mem 'N' _ _ hNp2, idxOfN_append_of_mem 'N' _ _ hNp2] at hidx
  have hlen : (CacheManager.jsToLower a).data.length =
      (CacheManager.jsToLower b).data.length := by
    have : idxOfN 'N' ("player2Name" : String).data = 7 := by decide
    omega
  exact hne (string_ext (List.append_inj h4 hlen).1)

/-- Witness for C7 at a concrete pair of names. -/
theorem predictionKey_order_sensitive_witness :
    CacheManager.jsToLower "djokovic" ≠ CacheManager.jsToLower "nadal" ∧
    CacheManager.predictionKey "djokovic" "nadal" "clay" none ≠
      CacheManager.predictionKey "nadal" "djokovic" "clay" none :=
  ⟨by decide, predictionKey_order_sensitive "djokovic" "nadal" "clay" none (by decide)⟩

end TennisCache
